import Mathlib

/-!
# Fixed-point arithmetic of `m_fixed.h` and the tick counter of `i_system.c`

A shallow embedding of the 16.16 fixed-point kernel (`FixedMul`, `FixedDiv`,
`FixedMod`, `FixedReciprocal`, `FixedApproxDiv`) and of `I_GetTime`. A `fixed_t`
is a mathematical integer in the signed 32-bit range (`InInt32`). Every C
conversion is explicit: `toInt32` and `toInt64` reduce into the signed ranges,
`toUnsigned` gives the 32-bit pattern, and the bitwise operators act on
patterns. The operators `/` and `%` are fallible (`cdiv`, `crem`): they have no
result for a zero divisor or for the least value divided by `-1`, so the
functions that use them return an `Option`. The loop of `FixedReciprocal` runs
on fuel (`rangeReduce`), and `reciprocalTable` is a parameter. The statics of
`I_GetTime` are an explicit state (`VideoTicks`).
-/

namespace DoomFixed

/-- Number of fractional bits: `#define FRACBITS 16`. -/
def FRACBITS : Nat := 16

/-- One in 16.16 fixed point: `#define FRACUNIT (1 << FRACBITS)`. -/
def FRACUNIT : Int := 2 ^ FRACBITS

/-- Largest value of a C `int` (32 bits). -/
def INT_MAX : Int := 2147483647

/-- Smallest value of a C `int` (32 bits). -/
def INT_MIN : Int := -2147483648

/-- A mathematical integer that is the value of some `fixed_t` (a 32-bit `int`). -/
def InInt32 (x : Int) : Prop := INT_MIN ≤ x ∧ x ≤ INT_MAX

instance (x : Int) : Decidable (InInt32 x) := by
  unfold InInt32; infer_instance

/-- Conversion to `int` / `fixed_t`: reduction modulo 2^32 into the signed range. -/
def toInt32 (x : Int) : Int := (x + 2 ^ 31) % 2 ^ 32 - 2 ^ 31

/-- Conversion to `int64_t`: reduction modulo 2^64 into the signed range. -/
def toInt64 (x : Int) : Int := (x + 2 ^ 63) % 2 ^ 64 - 2 ^ 63

/-- Conversion to `unsigned`: the 32-bit two's complement bit pattern. -/
def toUnsigned (x : Int) : Nat := (x % 2 ^ 32).toNat

/-- The library `abs` on `int` (`#define D_abs abs`); the negation is done in
32 bits, so `D_abs INT_MIN` is `INT_MIN` again. -/
def D_abs (x : Int) : Int := toInt32 (if x < 0 then -x else x)

/-- Bitwise `^` on two `int`s, computed on the bit patterns. -/
def xor32 (a b : Int) : Int := toInt32 ((toUnsigned a ^^^ toUnsigned b : Nat) : Int)

/-- Bitwise `&` on two `int`s, computed on the bit patterns. -/
def and32 (a b : Int) : Int := toInt32 ((toUnsigned a &&& toUnsigned b : Nat) : Int)

/-- Arithmetic right shift `>>` of a signed value. -/
def sar (a : Int) (s : Nat) : Int := a >>> s

/-- Signed division `/` at a width whose least value is `lo`: truncates toward
zero; dividing by zero or dividing `lo` by `-1` has no result. -/
def cdiv (lo a b : Int) : Option Int :=
  if b = 0 then none
  else if a = lo ∧ b = -1 then none
  else some (Int.tdiv a b)

/-- Signed remainder `%` at a width whose least value is `lo`: takes the sign of
the dividend; a zero divisor or `lo % -1` has no result. -/
def crem (lo a b : Int) : Option Int :=
  if b = 0 then none
  else if a = lo ∧ b = -1 then none
  else some (Int.tmod a b)

/-- The function `FixedMul`: `(fixed_t)((int64_t) a * b >> FRACBITS)`. -/
def FixedMul (a b : Int) : Int :=
  toInt32 (sar (toInt64 (a * b)) FRACBITS)

/-- The test of `FixedDiv`: `((unsigned)D_abs(a)>>14) >= (unsigned)D_abs(b)`. -/
def overflowGuard (a b : Int) : Bool :=
  decide (toUnsigned (D_abs b) ≤ toUnsigned (D_abs a) >>> 14)

/-- The saturated result of `FixedDiv`: `((a^b)>>31) ^ INT_MAX`. -/
def saturated (a b : Int) : Int :=
  xor32 (sar (xor32 a b) 31) INT_MAX

/-- The dividing branch of `FixedDiv`: `(fixed_t)(((int64_t) a << FRACBITS) / b)`. -/
def scaledQuotient (a b : Int) : Option Int :=
  (cdiv (-(2 ^ 63)) (toInt64 (a * 2 ^ FRACBITS)) b).map toInt32

/-- The function `FixedDiv`: the saturated value when the test holds, the scaled quotient
otherwise. -/
def FixedDiv (a b : Int) : Option Int :=
  if overflowGuard a b then some (saturated a b) else scaledQuotient a b

/-- The general path of `FixedMod`: `r = a % b; return (r<0) ? r+b : r`. -/
def modGeneral (a b : Int) : Option Int :=
  (crem INT_MIN a b).map fun r => if r < 0 then toInt32 (r + b) else r

/-- The masking path of `FixedMod`: `a & (b-1)`. -/
def modMask (a b : Int) : Int := and32 a (toInt32 (b - 1))

/-- The function `FixedMod`: zero for a zero dividend, the general path when
`b & (b-1)` is nonzero, the mask otherwise. -/
def FixedMod (a b : Int) : Option Int :=
  if a = 0 then some 0
  else if and32 b (toInt32 (b - 1)) ≠ 0 then modGeneral a b
  else some (modMask a b)


/-- The values `FixedMod` computes on the way, each before it is reduced to 32
bits: `b - 1` for the test, then on the general path the remainder `r` and,
when `r < 0`, the sum `r + b`, and on the other path the mask. There is no
list when the remainder has no result. -/
def FixedMod_values (a b : Int) : Option (List Int) :=
  if a = 0 then some [0]
  else if and32 b (toInt32 (b - 1)) ≠ 0 then
    (crem INT_MIN a b).map fun r => if r < 0 then [b - 1, r, r + b] else [b - 1, r]
  else some [b - 1, modMask a b]

/-- The initial value of `val` in `FixedReciprocal`:
`unsigned int val = v < 0 ? -v : v`, the negation being done in 32 bits. -/
def reciprocalMagnitude (v : Int) : Nat :=
  toUnsigned (if v < 0 then toInt32 (-v) else v)

/-- The loop of `FixedReciprocal`:
`while (val > (1 << FRACBITS)) { val = (val >> 1u); shift++; }`,
run for at most `fuel` tests of its condition and returning the final `val`
and `shift`; there is no result when the fuel runs out first. The counter is
a natural number: it stays far below 2^32. -/
def rangeReduce : Nat → Nat → Nat → Option (Nat × Nat)
  | 0, _, _ => none
  | fuel + 1, val, shift =>
    if 1 <<< FRACBITS < val then rangeReduce fuel (val >>> 1) (shift + 1)
    else some (val, shift)

/-- The function `FixedReciprocal`. The array `reciprocalTable` of `m_recip.h`
is a parameter, giving the value of each entry as an integer. The loop gets 32
units of fuel, one for each bit of `val`;
`result = reciprocalTable[val] >> shift` is converted to `fixed_t`, and the
sign of `v` is restored by a 32-bit negation. -/
def FixedReciprocal (reciprocalTable : Nat → Int) (v : Int) : Option Int :=
  (rangeReduce 32 (reciprocalMagnitude v) 0).map fun p =>
    let result := toInt32 (sar (reciprocalTable p.1) p.2)
    if v < 0 then toInt32 (-result) else result

/-- The function `FixedApproxDiv`: `FixedMul(a, FixedReciprocal(b))`. -/
def FixedApproxDiv (reciprocalTable : Nat → Int) (a b : Int) : Option Int :=
  (FixedReciprocal reciprocalTable b).map fun r => FixedMul a r

/-- The statics of `i_system.c`: `vt_last` (16 bits) and `vt_base` (32 bits). -/
structure VideoTicks where
  vt_last : Nat
  vt_base : Nat
deriving DecidableEq

/-- The initial statics: `vt_last = 0`, `vt_base = 0`. -/
def VideoTicks.init : VideoTicks := ⟨0, 0⟩

/-- One call of `I_GetTime` when the tick count is `ticks`: `vt_now` is its low
16 bits; `vt_base` grows by 65536 (in 32 bits) when `vt_now < vt_last`; the
value returned is `vt_base + vt_now`, added in 32 bits and converted to `int`. -/
def I_GetTime (s : VideoTicks) (ticks : Nat) : VideoTicks × Int :=
  let vt_now := ticks % 65536
  let vt_base := if vt_now < s.vt_last then (s.vt_base + 65536) % 2 ^ 32 else s.vt_base
  (⟨vt_now, vt_base⟩, toInt32 (((vt_base + vt_now) % 2 ^ 32 : Nat) : Int))

/-- The values returned by successive calls of `I_GetTime`, one for each tick
count of the list. -/
def getTimes (s : VideoTicks) : List Nat → List Int
  | [] => []
  | t :: ts => (I_GetTime s t).2 :: getTimes (I_GetTime s t).1 ts

/-- The statics after successive calls of `I_GetTime`. -/
def finalTicks (s : VideoTicks) : List Nat → VideoTicks
  | [] => s
  | t :: ts => finalTicks (I_GetTime s t).1 ts

/-- The relation between the statics and a tick count `count`: `vt_base` is a
32-bit multiple of 65536, `vt_last` is a 16-bit value, and `vt_base + vt_last`
is `count` modulo 2^32. -/
def TicksInvariant (s : VideoTicks) (count : Nat) : Prop :=
  65536 ∣ s.vt_base ∧ s.vt_base < 2 ^ 32 ∧ s.vt_last < 65536 ∧
    (s.vt_base + s.vt_last) % 2 ^ 32 = count % 2 ^ 32

/-- The condition on the tick counts seen by successive calls, `prev` being the
count before the first of them: each count is at least the one before it and
less than 65536 above it. -/
def ticksAdvance (prev : Nat) : List Nat → Bool
  | [] => true
  | t :: ts => decide (prev ≤ t) && decide (t < prev + 65536) && ticksAdvance t ts


/-! ### Conversions and the magnitude test -/

theorem toInt32_range (x : Int) : InInt32 (toInt32 x) := by
  unfold InInt32 INT_MIN INT_MAX toInt32; omega

theorem toInt32_of_InInt32 {x : Int} (h : InInt32 x) : toInt32 x = x := by
  unfold InInt32 INT_MIN INT_MAX at h; unfold toInt32; omega

theorem toUnsigned_lt (x : Int) : toUnsigned x < 2 ^ 32 := by
  unfold toUnsigned; omega

theorem toUnsigned_D_abs {x : Int} (h : InInt32 x) :
    toUnsigned (D_abs x) = x.natAbs := by
  unfold InInt32 INT_MIN INT_MAX at h
  unfold toUnsigned D_abs toInt32
  split <;> omega

theorem overflowGuard_iff {a b : Int} (ha : InInt32 a) (hb : InInt32 b) :
    overflowGuard a b = true ↔ b.natAbs ≤ a.natAbs >>> 14 := by
  unfold overflowGuard
  rw [toUnsigned_D_abs ha, toUnsigned_D_abs hb]
  simp

theorem overflowGuard_false_iff {a b : Int} (ha : InInt32 a) (hb : InInt32 b) :
    overflowGuard a b = false ↔ a.natAbs < b.natAbs * 2 ^ 14 := by
  rw [← Bool.not_eq_true, overflowGuard_iff ha hb, Nat.shiftRight_eq_div_pow,
    not_le, Nat.div_lt_iff_lt_mul (by norm_num)]

/-! ### The saturated value -/

theorem toUnsigned_sign {x : Int} (h : InInt32 x) :
    (toUnsigned x).testBit 31 = decide (x < 0) := by
  unfold InInt32 INT_MIN INT_MAX at h
  obtain ⟨h1, h2⟩ := h
  rw [Nat.testBit_to_div_mod]
  unfold toUnsigned
  by_cases hx : x < 0
  · simp only [hx, decide_True, decide_eq_true_eq]; omega
  · simp only [hx, decide_False, decide_eq_false_iff_not]; omega

theorem toInt32_natCast_neg (n : Nat) :
    toInt32 (n : Int) < 0 ↔ n.testBit 31 = true := by
  rw [Nat.testBit_to_div_mod]
  unfold toInt32
  simp only [decide_eq_true_eq]
  omega

theorem xor32_neg_iff {a b : Int} (ha : InInt32 a) (hb : InInt32 b) :
    xor32 a b < 0 ↔ ¬ (a < 0 ↔ b < 0) := by
  unfold xor32
  rw [toInt32_natCast_neg,
    Nat.testBit_xor, toUnsigned_sign ha, toUnsigned_sign hb]
  by_cases h1 : a < 0 <;> by_cases h2 : b < 0 <;> simp [h1, h2]

theorem xor32_range (a b : Int) : InInt32 (xor32 a b) := toInt32_range _

theorem sar_31 {x : Int} (h : InInt32 x) :
    sar x 31 = if x < 0 then -1 else 0 := by
  unfold InInt32 INT_MIN INT_MAX at h
  unfold sar
  rw [Int.shiftRight_eq_div_pow]
  split <;> omega

theorem saturated_eq {a b : Int} (ha : InInt32 a) (hb : InInt32 b) :
    saturated a b = if (a < 0 ↔ b < 0) then INT_MAX else INT_MIN := by
  unfold saturated
  rw [sar_31 (xor32_range a b)]
  by_cases h : (a < 0 ↔ b < 0)
  · have hx : ¬ xor32 a b < 0 := by rw [xor32_neg_iff ha hb]; exact not_not.mpr h
    rw [if_neg hx, if_pos h]; decide
  · have hx : xor32 a b < 0 := (xor32_neg_iff ha hb).mpr h
    rw [if_pos hx, if_neg h]; decide

/-! ### The dividing branch -/

theorem toInt64_shift {a : Int} (ha : InInt32 a) :
    toInt64 (a * 2 ^ FRACBITS) = a * 2 ^ 16 := by
  unfold InInt32 INT_MIN INT_MAX at ha
  unfold toInt64 FRACBITS
  omega

theorem tdiv_bound {a b : Int} (h : a.natAbs < b.natAbs * 2 ^ 14) :
    (Int.tdiv (a * 2 ^ 16) b).natAbs < 2 ^ 30 := by
  rw [Int.natAbs_tdiv, Int.natAbs_mul]
  have h16 : (2 ^ 16 : Int).natAbs = 2 ^ 16 := by decide
  rw [h16]
  have hb : 0 < b.natAbs := by omega
  show a.natAbs * 2 ^ 16 / b.natAbs < 2 ^ 30
  rw [Nat.div_lt_iff_lt_mul hb]
  omega

theorem scaledQuotient_eq {a b : Int} (ha : InInt32 a) (hb : InInt32 b)
    (h : overflowGuard a b = false) :
    b ≠ 0 ∧ (Int.tdiv (a * 2 ^ 16) b).natAbs < 2 ^ 30 ∧
      scaledQuotient a b = some (Int.tdiv (a * 2 ^ 16) b) := by
  rw [overflowGuard_false_iff ha hb] at h
  have hq := tdiv_bound h
  have hb0 : b ≠ 0 := by omega
  refine ⟨hb0, hq, ?_⟩
  unfold scaledQuotient cdiv
  rw [toInt64_shift ha, if_neg hb0]
  have hlo : ¬ (a * 2 ^ 16 = -(2 ^ 63) ∧ b = -1) := by
    unfold InInt32 INT_MIN INT_MAX at ha; omega
  rw [if_neg hlo]
  simp only [Option.map_some']
  congr 1
  unfold toInt32
  omega

theorem FixedDiv_of_guard {a b : Int} (ha : InInt32 a) (hb : InInt32 b)
    (hg : b.natAbs ≤ a.natAbs >>> 14) :
    FixedDiv a b = some (if (a < 0 ↔ b < 0) then INT_MAX else INT_MIN) := by
  unfold FixedDiv
  rw [if_pos ((overflowGuard_iff ha hb).mpr hg), saturated_eq ha hb]

theorem FixedDiv_of_not_guard {a b : Int} (ha : InInt32 a) (hb : InInt32 b)
    (hg : ¬ b.natAbs ≤ a.natAbs >>> 14) :
    FixedDiv a b = some (Int.tdiv (a * 2 ^ 16) b) := by
  have hf : overflowGuard a b = false := by
    rw [← Bool.not_eq_true, overflowGuard_iff ha hb]; exact hg
  unfold FixedDiv
  rw [hf]
  exact (scaledQuotient_eq ha hb hf).2.2

/-! ### The shift of `FixedMul` -/

theorem toInt64_mul {a b : Int} (ha : InInt32 a) (hb : InInt32 b) :
    toInt64 (a * b) = a * b := by
  unfold InInt32 INT_MIN INT_MAX at ha hb
  have h1 : a.natAbs ≤ 2 ^ 31 := by omega
  have h2 : b.natAbs ≤ 2 ^ 31 := by omega
  have h3 : (a * b).natAbs ≤ 2 ^ 31 * 2 ^ 31 := by
    rw [Int.natAbs_mul]; exact Nat.mul_le_mul h1 h2
  unfold toInt64
  omega

theorem FixedMul_eq {a b : Int} (ha : InInt32 a) (hb : InInt32 b) :
    FixedMul a b = toInt32 (Int.fdiv (a * b) (2 ^ 16)) := by
  unfold FixedMul sar FRACBITS
  rw [toInt64_mul ha hb, Int.shiftRight_eq_div_pow, Int.fdiv_eq_ediv _ (by norm_num)]
  norm_num


/-! ### Claims about `FixedDiv` and `FixedMul` -/

/-- C1. Saturation rule of `FixedDiv`: for 32-bit `a` and `b` whose magnitudes
(as unsigned values, so that the magnitude of `INT_MIN` is 2^31) satisfy
`(|a| >> 14) >= |b|`, the result is `INT_MAX` when the sign bits of `a` and `b`
agree and `INT_MIN` when they differ; in particular
`FixedDiv INT_MAX FRACUNIT` is `INT_MAX`, which is not negative. -/
theorem FixedDiv_saturation (a b : Int) (ha : InInt32 a) (hb : InInt32 b)
    (hg : b.natAbs ≤ a.natAbs >>> 14) :
    overflowGuard a b = true ∧
    FixedDiv a b = some (if (a < 0 ↔ b < 0) then INT_MAX else INT_MIN) ∧
    FixedDiv INT_MAX FRACUNIT = some INT_MAX ∧ 0 ≤ INT_MAX :=
  ⟨(overflowGuard_iff ha hb).mpr hg, FixedDiv_of_guard ha hb hg, by decide, by decide⟩

theorem FixedDiv_saturation_witness :
    InInt32 INT_MIN ∧ InInt32 3 ∧ (3 : Int).natAbs ≤ INT_MIN.natAbs >>> 14 ∧
    FixedDiv INT_MIN 3 = some INT_MIN :=
  ⟨by decide, by decide, by decide,
    (FixedDiv_saturation INT_MIN 3 (by decide) (by decide) (by decide)).2.1⟩

/-- C2. Exactness of `FixedDiv` without saturation: for 32-bit `a` and `b` with
`(|a| >> 14) >= |b|` false, the result is the quotient of `a * 2^16` by `b`
truncated toward zero, as an unbounded integer (no 32-bit wrap-around); for
instance 7.0 / 2.0 is 3.5 and -7.0 / 2.0 is -3.5. -/
theorem FixedDiv_exact (a b : Int) (ha : InInt32 a) (hb : InInt32 b)
    (hg : ¬ b.natAbs ≤ a.natAbs >>> 14) :
    overflowGuard a b = false ∧
    FixedDiv a b = some (Int.tdiv (a * 2 ^ 16) b) ∧
    FixedDiv (7 * 65536) (2 * 65536) = some (3 * 65536 + 32768) ∧
    FixedDiv (-7 * 65536) (2 * 65536) = some (-(3 * 65536 + 32768)) :=
  ⟨by rw [← Bool.not_eq_true, overflowGuard_iff ha hb]; exact hg,
    FixedDiv_of_not_guard ha hb hg, by decide, by decide⟩

theorem FixedDiv_exact_witness :
    InInt32 (-7) ∧ InInt32 131072 ∧
    ¬ (131072 : Int).natAbs ≤ (-7 : Int).natAbs >>> 14 ∧
    FixedDiv (-7) 131072 = some (Int.tdiv (-7 * 2 ^ 16) 131072) ∧
    Int.tdiv (-7 * 2 ^ 16) 131072 = -3 :=
  ⟨by decide, by decide, by decide,
    (FixedDiv_exact (-7) 131072 (by decide) (by decide) (by decide)).2.1, by decide⟩

/-- C3. Division by zero saturates: for every 32-bit `x`, `FixedDiv x 0` takes
the saturation branch, giving `INT_MAX` for positive `x` and `INT_MIN` for
negative `x`; `FixedDiv 0 0` is `INT_MAX`. -/
theorem FixedDiv_by_zero (x : Int) (hx : InInt32 x) :
    overflowGuard x 0 = true ∧
    (0 < x → FixedDiv x 0 = some INT_MAX) ∧
    (x < 0 → FixedDiv x 0 = some INT_MIN) ∧
    FixedDiv 0 0 = some INT_MAX := by
  have h0 : InInt32 0 := by decide
  have hg : (0 : Int).natAbs ≤ x.natAbs >>> 14 := by simp
  refine ⟨(overflowGuard_iff hx h0).mpr hg, ?_, ?_, by decide⟩
  · intro hpos
    rw [FixedDiv_of_guard hx h0 hg, if_pos]
    constructor <;> intro h <;> omega
  · intro hneg
    rw [FixedDiv_of_guard hx h0 hg, if_neg]
    intro h
    have := h.mp hneg
    omega

theorem FixedDiv_by_zero_witness :
    InInt32 (-5) ∧ FixedDiv (-5) 0 = some INT_MIN :=
  ⟨by decide, (FixedDiv_by_zero (-5) (by decide)).2.2.1 (by decide)⟩

/-- C4. Totality of `FixedDiv`: for 32-bit `a` and `b`, whenever the dividing
branch is taken the divisor is nonzero, the 64-bit division has a result `q`
with `|q| < 2^30`, and the conversion of `q` to 32 bits leaves it unchanged;
hence `FixedDiv` always returns, and what it returns is `INT_MAX`, `INT_MIN`
or a value of magnitude below 2^30. -/
theorem FixedDiv_total (a b : Int) (ha : InInt32 a) (hb : InInt32 b) :
    (overflowGuard a b = false →
      b ≠ 0 ∧ ∃ q, cdiv (-(2 ^ 63)) (toInt64 (a * 2 ^ FRACBITS)) b = some q ∧
        q.natAbs < 2 ^ 30 ∧ toInt32 q = q) ∧
    ∃ r, FixedDiv a b = some r ∧ (r = INT_MAX ∨ r = INT_MIN ∨ r.natAbs < 2 ^ 30) := by
  constructor
  · intro hf
    obtain ⟨hb0, hq, hs⟩ := scaledQuotient_eq ha hb hf
    refine ⟨hb0, Int.tdiv (a * 2 ^ 16) b, ?_, hq, ?_⟩
    · unfold cdiv
      rw [toInt64_shift ha, if_neg hb0, if_neg]
      unfold InInt32 INT_MIN INT_MAX at ha; omega
    · unfold toInt32; omega
  · by_cases hg : b.natAbs ≤ a.natAbs >>> 14
    · refine ⟨_, FixedDiv_of_guard ha hb hg, ?_⟩
      split
      · exact Or.inl rfl
      · exact Or.inr (Or.inl rfl)
    · have hf : overflowGuard a b = false := by
        rw [← Bool.not_eq_true, overflowGuard_iff ha hb]; exact hg
      exact ⟨_, FixedDiv_of_not_guard ha hb hg,
        Or.inr (Or.inr (scaledQuotient_eq ha hb hf).2.1)⟩

theorem FixedDiv_total_witness :
    InInt32 INT_MIN ∧ InInt32 (-1) ∧
    ∃ r, FixedDiv INT_MIN (-1) = some r ∧
      (r = INT_MAX ∨ r = INT_MIN ∨ r.natAbs < 2 ^ 30) :=
  ⟨by decide, by decide, (FixedDiv_total INT_MIN (-1) (by decide) (by decide)).2⟩

/-- C5. Reference definition of `FixedMul`: for 32-bit `a` and `b` the result is
the floor of `a * b / 2^16` (the exact product shifted right arithmetically)
reduced to a signed 32-bit value, and it is that floor itself whenever the floor
lies in the signed 32-bit range; for instance 3.0 * 2.0 is 6.0. -/
theorem FixedMul_floor (a b : Int) (ha : InInt32 a) (hb : InInt32 b) :
    FixedMul a b = toInt32 (Int.fdiv (a * b) (2 ^ 16)) ∧
    (InInt32 (Int.fdiv (a * b) (2 ^ 16)) → FixedMul a b = Int.fdiv (a * b) (2 ^ 16)) ∧
    FixedMul (3 * 65536) (2 * 65536) = 6 * 65536 :=
  ⟨FixedMul_eq ha hb, fun h => by rw [FixedMul_eq ha hb, toInt32_of_InInt32 h], by decide⟩

theorem FixedMul_floor_witness :
    InInt32 (-3) ∧ InInt32 5 ∧ InInt32 (Int.fdiv (-3 * 5) (2 ^ 16)) ∧
    FixedMul (-3) 5 = Int.fdiv (-3 * 5) (2 ^ 16) ∧ Int.fdiv (-3 * 5) (2 ^ 16) = -1 :=
  ⟨by decide, by decide, by decide,
    (FixedMul_floor (-3) 5 (by decide) (by decide)).2.1 (by decide), by decide⟩

/-- C6. Multiplicative identity: for every 32-bit `a`, `INT_MIN` and `INT_MAX`
included, `FixedMul a FRACUNIT = a` and `FixedMul FRACUNIT a = a`, with
`FRACUNIT = 65536`. -/
theorem FixedMul_FRACUNIT (a : Int) (ha : InInt32 a) :
    FRACUNIT = 65536 ∧ FixedMul a FRACUNIT = a ∧ FixedMul FRACUNIT a = a := by
  have hu : InInt32 FRACUNIT := by decide
  have hF : FRACUNIT = 2 ^ 16 := rfl
  have h1 : Int.fdiv (a * 2 ^ 16) (2 ^ 16) = a := by
    rw [Int.fdiv_eq_ediv _ (by norm_num)]; omega
  have h2 : Int.fdiv (2 ^ 16 * a) (2 ^ 16) = a := by
    rw [Int.fdiv_eq_ediv _ (by norm_num)]; omega
  refine ⟨by decide, ?_, ?_⟩
  · rw [FixedMul_eq ha hu, hF, h1, toInt32_of_InInt32 ha]
  · rw [FixedMul_eq hu ha, hF, h2, toInt32_of_InInt32 ha]

theorem FixedMul_FRACUNIT_witness :
    InInt32 INT_MIN ∧ FixedMul INT_MIN FRACUNIT = INT_MIN ∧
    FixedMul FRACUNIT INT_MIN = INT_MIN :=
  ⟨by decide, (FixedMul_FRACUNIT INT_MIN (by decide)).2⟩


/-! ### Truncated remainder -/

theorem natAbs_tmod_lt (a : Int) {b : Int} (hb : b ≠ 0) :
    (Int.tmod a b).natAbs < b.natAbs := by
  have key : (Int.tmod a b).natAbs = a.natAbs % b.natAbs := by
    cases a <;> cases b <;> simp [Int.tmod, Int.natAbs_neg] <;> rfl
  rw [key]
  exact Nat.mod_lt _ (by omega)

theorem tmod_sign (a b : Int) :
    (0 ≤ a → 0 ≤ Int.tmod a b) ∧ (a ≤ 0 → Int.tmod a b ≤ 0) := by
  refine ⟨Int.tmod_nonneg b, fun h => ?_⟩
  have h1 : 0 ≤ Int.tmod (-a) b := Int.tmod_nonneg b (by omega)
  have h2 : Int.tmod (-a) b = -Int.tmod a b := by
    rw [Int.tmod_def, Int.tmod_def, Int.neg_tdiv]; ring
  omega

/-! ### Division after multiplication -/

theorem roundtrip_bound {a b : Int} (hb0 : b ≠ 0) :
    (Int.tdiv (Int.fdiv (a * b) (2 ^ 16) * 2 ^ 16) b - a).natAbs * b.natAbs
      < 2 ^ 16 + b.natAbs := by
  rw [Int.fdiv_eq_ediv _ (by norm_num)]
  generalize hm : a * b / 2 ^ 16 = m
  have hr := Int.ediv_add_emod (a * b) (2 ^ 16)
  have hr0 := Int.emod_nonneg (a * b) (show (2 ^ 16 : Int) ≠ 0 by norm_num)
  have hr1 := Int.emod_lt_of_pos (a * b) (show (0 : Int) < 2 ^ 16 by norm_num)
  rw [hm] at hr
  have ht := Int.tdiv_add_tmod (m * 2 ^ 16) b
  have ht1 := natAbs_tmod_lt (m * 2 ^ 16) hb0
  have hX : (Int.tdiv (m * 2 ^ 16) b - a) * b
      = -(a * b % 2 ^ 16 + Int.tmod (m * 2 ^ 16) b) := by linarith
  rw [← Int.natAbs_mul, hX]
  omega

theorem FixedDiv_FixedMul_eq {a b : Int} (ha : InInt32 a) (hb : InInt32 b)
    (hno : InInt32 (Int.fdiv (a * b) (2 ^ 16)))
    (hg : overflowGuard (FixedMul a b) b = false) :
    FixedDiv (FixedMul a b) b
      = some (Int.tdiv (Int.fdiv (a * b) (2 ^ 16) * 2 ^ 16) b) := by
  have hm : FixedMul a b = Int.fdiv (a * b) (2 ^ 16) := by
    rw [FixedMul_eq ha hb, toInt32_of_InInt32 hno]
  rw [hm] at hg ⊢
  apply FixedDiv_of_not_guard hno hb
  rw [← overflowGuard_iff hno hb, hg]
  simp

/-- C7, as stated, fails: with `a = 65535` and `b = 1` the product does not
overflow and the test of `FixedDiv` does not trigger, yet
`FixedDiv (FixedMul a b) b = 0`, which is 65535 away from `a`. -/
theorem roundtrip_small_divisor_counterexample :
    InInt32 65535 ∧ InInt32 1 ∧ (1 : Int) ≠ 0 ∧
    InInt32 (Int.fdiv (65535 * 1) (2 ^ 16)) ∧ FixedMul 65535 1 = 0 ∧
    overflowGuard (FixedMul 65535 1) 1 = false ∧
    FixedDiv (FixedMul 65535 1) 1 = some 0 ∧
    ¬ ((0 - 65535 : Int).natAbs ≤ 1) := by
  decide

/-- C7, amended. For 32-bit `a` and nonzero 32-bit `b` such that `FixedMul a b`
does not overflow and the test of `FixedDiv` does not trigger on
`(FixedMul a b, b)`, the value `d = FixedDiv (FixedMul a b) b` satisfies
`|d - a| * |b| < 65536 + |b|`; in particular `d` differs from `a` by at most 1
whenever `|b| >= 65536`. -/
theorem FixedDiv_FixedMul_roundtrip (a b : Int) (ha : InInt32 a) (hb : InInt32 b)
    (hb0 : b ≠ 0) (hno : InInt32 (Int.fdiv (a * b) (2 ^ 16)))
    (hg : overflowGuard (FixedMul a b) b = false) :
    ∃ d, FixedDiv (FixedMul a b) b = some d ∧
      (d - a).natAbs * b.natAbs < 65536 + b.natAbs ∧
      (65536 ≤ b.natAbs → (d - a).natAbs ≤ 1) := by
  refine ⟨_, FixedDiv_FixedMul_eq ha hb hno hg, roundtrip_bound hb0, fun hbig => ?_⟩
  have h := roundtrip_bound (a := a) hb0
  generalize (Int.tdiv (Int.fdiv (a * b) (2 ^ 16) * 2 ^ 16) b - a).natAbs = e at h ⊢
  by_contra hcon
  have h2 : 2 ≤ e := by omega
  have h3 : 2 * b.natAbs ≤ e * b.natAbs := Nat.mul_le_mul_right _ h2
  omega

theorem FixedDiv_FixedMul_roundtrip_witness :
    InInt32 (-196611) ∧ InInt32 (-131072) ∧ (-131072 : Int) ≠ 0 ∧
    InInt32 (Int.fdiv (-196611 * -131072) (2 ^ 16)) ∧
    overflowGuard (FixedMul (-196611) (-131072)) (-131072) = false ∧
    ∃ d, FixedDiv (FixedMul (-196611) (-131072)) (-131072) = some d ∧
      (d - -196611).natAbs * (-131072 : Int).natAbs < 65536 + (-131072 : Int).natAbs ∧
      (65536 ≤ (-131072 : Int).natAbs → (d - -196611).natAbs ≤ 1) :=
  ⟨by decide, by decide, by decide, by decide, by decide,
    FixedDiv_FixedMul_roundtrip (-196611) (-131072) (by decide) (by decide) (by decide)
      (by decide) (by decide)⟩


/-! ### Powers of two and masks -/

theorem testBit_top {x k : Nat} (lo : 2 ^ k ≤ x) (hi : x < 2 ^ (k + 1)) :
    x.testBit k = true := by
  rw [Nat.testBit_to_div_mod]
  have hq : x / 2 ^ k = 1 := Nat.div_eq_of_lt_le (by omega) (by rw [pow_succ] at hi; omega)
  rw [hq]
  rfl

theorem and_pred_eq_zero_iff {n : Nat} (hn : 0 < n) :
    n &&& (n - 1) = 0 ↔ ∃ k, n = 2 ^ k := by
  constructor
  · intro h
    refine ⟨n.log2, ?_⟩
    have lo : 2 ^ n.log2 ≤ n := Nat.log2_self_le (by omega)
    have hi : n < 2 ^ (n.log2 + 1) := Nat.lt_log2_self
    by_contra hne
    have h1 := testBit_top lo hi
    have h2 : (n - 1).testBit n.log2 = true := testBit_top (by omega) (by omega)
    have h3 : (n &&& (n - 1)).testBit n.log2 = true := by
      rw [Nat.testBit_and, h1, h2]; rfl
    rw [h] at h3
    simp at h3
  · rintro ⟨k, rfl⟩
    rw [Nat.and_pow_two_sub_one_eq_mod, Nat.mod_self]

theorem toInt32_natCast_eq_zero {x : Nat} (h : x < 2 ^ 32) :
    toInt32 (x : Int) = 0 ↔ x = 0 := by
  unfold toInt32; omega

theorem and32_pred_eq_zero_iff {b : Int} (h0 : 0 < b) (hb : InInt32 b) :
    and32 b (toInt32 (b - 1)) = 0 ↔ ∃ k, k ≤ 30 ∧ b = 2 ^ k := by
  unfold InInt32 INT_MIN INT_MAX at hb
  have e1 : toInt32 (b - 1) = b - 1 := by unfold toInt32; omega
  have e2 : toUnsigned b = b.toNat := by unfold toUnsigned; omega
  have e3 : toUnsigned (b - 1) = b.toNat - 1 := by unfold toUnsigned; omega
  have hle : b.toNat &&& (b.toNat - 1) ≤ b.toNat := Nat.and_le_left
  unfold and32
  rw [e1, e2, e3, toInt32_natCast_eq_zero (by omega), and_pred_eq_zero_iff (by omega)]
  constructor
  · rintro ⟨k, hk⟩
    have hlt : 2 ^ k < 2 ^ 31 := by rw [← hk]; omega
    have hk31 : k < 31 := (Nat.pow_lt_pow_iff_right (by norm_num)).mp hlt
    refine ⟨k, by omega, ?_⟩
    have : ((b.toNat : Nat) : Int) = ((2 ^ k : Nat) : Int) := by rw [hk]
    rw [Int.toNat_of_nonneg (by omega)] at this
    rw [this]; norm_cast
  · rintro ⟨k, _, rfl⟩
    refine ⟨k, ?_⟩
    have : ((2 : Int) ^ k).toNat = 2 ^ k := by
      have : ((2 : Int) ^ k) = ((2 ^ k : Nat) : Int) := by norm_cast
      rw [this, Int.toNat_natCast]
    exact this

theorem modMask_pow_two {a : Int} {k : Nat} (hk : k ≤ 30) :
    modMask a (2 ^ k) = a % 2 ^ k := by
  have hpN : (2 : Nat) ^ k ≤ 2 ^ 30 := Nat.pow_le_pow_right (by norm_num) hk
  have hp1 : (0 : Nat) < 2 ^ k := Nat.pow_pos (by norm_num)
  have hcast : ((2 : Int) ^ k) = ((2 ^ k : Nat) : Int) := by norm_cast
  have e1 : toInt32 ((2 : Int) ^ k - 1) = 2 ^ k - 1 := by
    rw [hcast]; unfold toInt32; omega
  have e3 : toUnsigned ((2 : Int) ^ k - 1) = 2 ^ k - 1 := by
    rw [hcast]; unfold toUnsigned; omega
  have hdvd : ((2 : Int) ^ k) ∣ 2 ^ 32 := pow_dvd_pow 2 (by omega)
  unfold modMask and32
  rw [e1, e3, Nat.and_pow_two_sub_one_eq_mod]
  unfold toUnsigned
  rw [Int.ofNat_emod, Int.toNat_of_nonneg (Int.emod_nonneg _ (by norm_num))]
  have e4 : ((2 ^ k : Nat) : Int) = 2 ^ k := by norm_cast
  rw [e4, Int.emod_emod_of_dvd _ hdvd]
  have h0 := Int.emod_nonneg a (show ((2 : Int) ^ k) ≠ 0 by positivity)
  have h1 := Int.emod_lt_of_pos a (show (0 : Int) < 2 ^ k by positivity)
  rw [hcast] at h0 h1 ⊢
  unfold toInt32
  omega


/-! ### The two paths of `FixedMod` -/

theorem modGeneral_pos {a b : Int} (hb : InInt32 b) (h0 : 0 < b) :
    modGeneral a b = some (a % b) := by
  unfold InInt32 INT_MIN INT_MAX at hb
  have hlt := natAbs_tmod_lt a (show b ≠ 0 by omega)
  have hdiv := Int.tdiv_add_tmod a b
  have hmod : a % b = Int.tmod a b % b := by
    conv_lhs => rw [← hdiv, Int.add_comm, Int.add_mul_emod_self_left]
  unfold modGeneral crem
  rw [if_neg (by omega), if_neg (by omega)]
  simp only [Option.map_some', Option.some.injEq]
  split
  · next hr =>
    have e : toInt32 (Int.tmod a b + b) = Int.tmod a b + b := by unfold toInt32; omega
    rw [e, hmod, ← Int.add_emod_self, Int.emod_eq_of_lt (by omega) (by omega)]
  · next hr =>
    rw [hmod, Int.emod_eq_of_lt (by omega) (by omega)]

theorem FixedMod_pos {a b : Int} (hb : InInt32 b) (h0 : 0 < b) :
    FixedMod a b = some (a % b) := by
  unfold FixedMod
  split
  · next ha => rw [ha, Int.zero_emod]
  · split
    · exact modGeneral_pos hb h0
    · next hz =>
      obtain ⟨k, hk, rfl⟩ := (and32_pred_eq_zero_iff h0 hb).mp (not_not.mp hz)
      rw [modMask_pow_two hk]

theorem and32_pred_ne_zero {b : Int} (hb : InInt32 b) (hneg : b < 0)
    (hmin : INT_MIN < b) : and32 b (toInt32 (b - 1)) ≠ 0 := by
  have hb1 : InInt32 (b - 1) := by
    unfold InInt32 at hb ⊢; unfold INT_MIN INT_MAX at *; omega
  have hbit : (toUnsigned b &&& toUnsigned (b - 1)).testBit 31 = true := by
    rw [Nat.testBit_and, toUnsigned_sign hb, toUnsigned_sign hb1]
    simp only [Bool.and_eq_true, decide_eq_true_eq]
    omega
  intro h
  unfold and32 at h
  rw [toInt32_of_InInt32 hb1,
    toInt32_natCast_eq_zero (Nat.and_lt_two_pow _ (toUnsigned_lt _))] at h
  rw [h] at hbit
  simp at hbit

theorem modMask_INT_MIN {a : Int} (ha : InInt32 a) (h0 : 0 ≤ a) :
    modMask a INT_MIN = a := by
  unfold InInt32 INT_MIN INT_MAX at ha
  have e1 : toUnsigned (toInt32 (INT_MIN - 1)) = 2 ^ 31 - 1 := by decide
  have e2 : toUnsigned a = a.toNat := by unfold toUnsigned; omega
  unfold modMask and32
  rw [e1, e2, Nat.and_pow_two_sub_one_eq_mod]
  unfold toInt32
  omega

theorem FixedMod_neg_modulus {a b : Int} (ha : InInt32 a) (hb : InInt32 b)
    (hneg : b < 0) (h0 : 0 ≤ a) :
    ∃ r, FixedMod a b = some r ∧ 0 ≤ r ∧ r < b.natAbs := by
  unfold FixedMod
  split
  · exact ⟨0, rfl, le_refl _, by omega⟩
  · next hne =>
    by_cases hmin : b = INT_MIN
    · subst hmin
      rw [if_neg (by decide)]
      refine ⟨_, rfl, ?_, ?_⟩ <;> rw [modMask_INT_MIN ha h0]
      · exact h0
      · unfold InInt32 INT_MIN INT_MAX at ha; unfold INT_MIN; omega
    · have hlo : INT_MIN < b := by
        unfold InInt32 at hb; omega
      rw [if_pos (and32_pred_ne_zero hb hneg hlo)]
      have hlt := natAbs_tmod_lt a (show b ≠ 0 by omega)
      have hs := (tmod_sign a b).1 h0
      unfold modGeneral crem
      rw [if_neg (by omega), if_neg (by unfold INT_MIN; omega)]
      simp only [Option.map_some']
      rw [if_neg (by omega)]
      exact ⟨_, rfl, hs, by omega⟩


theorem InInt32_pow_two {k : Nat} (hk : k ≤ 30) : InInt32 ((2 : Int) ^ k) ∧ (0 : Int) < 2 ^ k := by
  have hpN : (2 : Nat) ^ k ≤ 2 ^ 30 := Nat.pow_le_pow_right (by norm_num) hk
  have hp1 : (0 : Nat) < 2 ^ k := Nat.pow_pos (by norm_num)
  have hcast : ((2 : Int) ^ k) = ((2 ^ k : Nat) : Int) := by norm_cast
  rw [hcast]
  unfold InInt32 INT_MIN INT_MAX
  omega

/-! ### Claims about `FixedMod` -/

/-- C8, as stated, fails for a negative modulus: `FixedMod (-5) (-3)` takes the
general path, where `-5 % -3 = -2` is corrected to `-2 + -3 = -5`, a negative
result. -/
theorem FixedMod_negative_operands_counterexample :
    InInt32 (-5) ∧ InInt32 (-3) ∧ (-3 : Int) ≠ 0 ∧
    FixedMod (-5) (-3) = some (-5) ∧ ¬ (0 : Int) ≤ -5 := by
  decide

/-- C8, amended. For 32-bit `a` and nonzero 32-bit `b` with `b > 0` or `a >= 0`,
`FixedMod a b` returns a value `r` with `0 <= r < |b|`. -/
theorem FixedMod_range (a b : Int) (ha : InInt32 a) (hb : InInt32 b) (hb0 : b ≠ 0)
    (h : 0 < b ∨ 0 ≤ a) :
    ∃ r, FixedMod a b = some r ∧ 0 ≤ r ∧ r < b.natAbs := by
  by_cases hpos : 0 < b
  · refine ⟨_, FixedMod_pos hb hpos, Int.emod_nonneg _ hb0, ?_⟩
    have := Int.emod_lt_of_pos a hpos
    omega
  · exact FixedMod_neg_modulus ha hb (by omega) (by omega)

theorem FixedMod_range_witness :
    InInt32 (-5) ∧ InInt32 3 ∧ (3 : Int) ≠ 0 ∧ ((0 : Int) < 3 ∨ (0 : Int) ≤ -5) ∧
    ∃ r, FixedMod (-5) 3 = some r ∧ 0 ≤ r ∧ r < (3 : Int).natAbs :=
  ⟨by decide, by decide, by decide, by decide,
    FixedMod_range (-5) 3 (by decide) (by decide) (by decide) (by decide)⟩

/-- C9. For a positive modulus `FixedMod` is the mathematical modulo: for 32-bit
`a` and `0 < b <= INT_MAX` the result is the floor modulo of `a` by `b`, the
unique `r` with `0 <= r < b` and `r` congruent to `a` modulo `b`, whichever of
the general path and the masking path the test selects; for instance
`FixedMod (-1.0) 4.0 = 3.0`. -/
theorem FixedMod_floor_mod (a b : Int) (_ha : InInt32 a) (h0 : 0 < b) (hb : b ≤ INT_MAX) :
    ∃ r, FixedMod a b = some r ∧ r = Int.fmod a b ∧
      0 ≤ r ∧ r < b ∧ b ∣ a - r ∧
      (∀ s, 0 ≤ s → s < b → b ∣ a - s → s = r) ∧
      (and32 b (toInt32 (b - 1)) ≠ 0 → modGeneral a b = some r) ∧
      (and32 b (toInt32 (b - 1)) = 0 → modMask a b = r) ∧
      FixedMod (-1 * 65536) (4 * 65536) = some (3 * 65536) := by
  have hb32 : InInt32 b := by
    unfold InInt32 INT_MIN; omega
  refine ⟨a % b, FixedMod_pos hb32 h0, (Int.fmod_eq_emod a (by omega)).symm,
    Int.emod_nonneg _ (by omega), Int.emod_lt_of_pos a h0, ?_, ?_, ?_, ?_, by decide⟩
  · exact Int.dvd_sub_of_emod_eq rfl
  · rintro s hs0 hs1 ⟨c, hc⟩
    have e : a = s + b * c := by omega
    rw [e, Int.add_mul_emod_self_left, Int.emod_eq_of_lt hs0 hs1]
  · intro _
    exact modGeneral_pos hb32 h0
  · intro hz
    obtain ⟨k, hk, rfl⟩ := (and32_pred_eq_zero_iff h0 hb32).mp hz
    exact modMask_pow_two hk

theorem FixedMod_floor_mod_witness :
    InInt32 (-7) ∧ (0 : Int) < 3 ∧ (3 : Int) ≤ INT_MAX ∧
    ∃ r, FixedMod (-7) 3 = some r ∧ r = Int.fmod (-7) 3 ∧ r = 2 := by
  refine ⟨by decide, by decide, by decide, ?_⟩
  obtain ⟨r, h1, h2, _⟩ := FixedMod_floor_mod (-7) 3 (by decide) (by decide) (by decide)
  exact ⟨r, h1, h2, by rw [h2]; decide⟩

/-- C10. Equivalence of the masking path and the general path: for 32-bit `a`
and `b = 2^k` with `0 <= k <= 30`, the test of `FixedMod` selects the mask, the
value `a & (b-1)` that `FixedMod` returns is the value the general path (the C
remainder `r = a % b`, replaced by `r + b` when negative) computes; for
`a = -65536` and `b = 4096` both give 0. -/
theorem FixedMod_mask_eq_general (a : Int) (k : Nat) (_ha : InInt32 a) (hk : k ≤ 30) :
    and32 (2 ^ k) (toInt32 (2 ^ k - 1)) = 0 ∧
    FixedMod a (2 ^ k) = some (modMask a (2 ^ k)) ∧
    modGeneral a (2 ^ k) = some (modMask a (2 ^ k)) ∧
    FixedMod (-65536) 4096 = some 0 ∧ modGeneral (-65536) 4096 = some 0 := by
  obtain ⟨h32, hpos⟩ := InInt32_pow_two hk
  refine ⟨(and32_pred_eq_zero_iff hpos h32).mpr ⟨k, hk, rfl⟩, ?_, ?_, by decide, by decide⟩
  · rw [FixedMod_pos h32 hpos, modMask_pow_two hk]
  · rw [modGeneral_pos h32 hpos, modMask_pow_two hk]

theorem FixedMod_mask_eq_general_witness :
    InInt32 (-65537) ∧ 12 ≤ 30 ∧
    FixedMod (-65537) (2 ^ 12) = some (modMask (-65537) (2 ^ 12)) ∧
    modGeneral (-65537) (2 ^ 12) = some (modMask (-65537) (2 ^ 12)) ∧
    modMask (-65537) (2 ^ 12) = 4095 :=
  ⟨by decide, by decide,
    (FixedMod_mask_eq_general (-65537) 12 (by decide) (by decide)).2.1,
    (FixedMod_mask_eq_general (-65537) 12 (by decide) (by decide)).2.2.1, by decide⟩

/-! ### Intermediate values of `FixedMod` -/

theorem FixedMod_values_pos {a b : Int} (hb : InInt32 b) (h0 : 0 < b) :
    ∃ vs, FixedMod_values a b = some vs ∧ ∀ x ∈ vs, InInt32 x := by
  have hb1 : InInt32 (b - 1) := by
    unfold InInt32 at hb ⊢; unfold INT_MIN INT_MAX at *; omega
  unfold FixedMod_values
  split
  · exact ⟨[0], rfl, by simp; decide⟩
  · split
    · have hlt := natAbs_tmod_lt a (show b ≠ 0 by omega)
      have hr : InInt32 (Int.tmod a b) := by
        unfold InInt32 at hb ⊢; unfold INT_MIN INT_MAX at *; omega
      unfold crem
      rw [if_neg (by omega), if_neg (by omega)]
      simp only [Option.map_some']
      split
      · next hneg =>
        refine ⟨_, rfl, ?_⟩
        have hs : InInt32 (Int.tmod a b + b) := by
          unfold InInt32 at hb ⊢; unfold INT_MIN INT_MAX at *; omega
        simp [hb1, hr, hs]
      · exact ⟨_, rfl, by simp [hb1, hr]⟩
    · refine ⟨_, rfl, ?_⟩
      have hm : InInt32 (modMask a b) := toInt32_range _
      simp [hb1, hm]

theorem FixedMod_values_neg {a b : Int} (hb : InInt32 b)
    (hneg : b < 0) (hmin : INT_MIN < b) (h0 : 0 ≤ a) :
    ∃ vs, FixedMod_values a b = some vs ∧ ∀ x ∈ vs, InInt32 x := by
  have hb1 : InInt32 (b - 1) := by
    unfold InInt32 at hb ⊢; unfold INT_MIN INT_MAX at *; omega
  unfold FixedMod_values
  split
  · exact ⟨[0], rfl, by simp; decide⟩
  · rw [if_pos (and32_pred_ne_zero hb hneg hmin)]
    have hlt := natAbs_tmod_lt a (show b ≠ 0 by omega)
    have hs := (tmod_sign a b).1 h0
    have hr : InInt32 (Int.tmod a b) := by
      unfold InInt32 at hb ⊢; unfold INT_MIN INT_MAX at *; omega
    unfold crem
    rw [if_neg (by omega), if_neg (by unfold InInt32 INT_MIN at *; omega)]
    simp only [Option.map_some']
    rw [if_neg (by omega)]
    exact ⟨_, rfl, by simp [hb1, hr]⟩

/-- C11, as stated, fails: with `a = 1` and `b = INT_MIN` the first value
`FixedMod` computes is `b - 1 = -2147483649`, below the signed 32-bit range. -/
theorem FixedMod_overflow_counterexample :
    InInt32 1 ∧ InInt32 INT_MIN ∧ INT_MIN ≠ 0 ∧
    FixedMod_values 1 INT_MIN = some [-2147483649, 1] ∧
    ¬ InInt32 (-2147483649) := by
  decide

/-- C11, amended. For 32-bit `a` and nonzero 32-bit `b` with `b > 0`, or with
`a >= 0` and `b > INT_MIN`, every value `FixedMod` computes (`b - 1`, the
remainder `r`, the sum `r + b`, the mask) and its result lie in the signed
32-bit range. -/
theorem FixedMod_no_overflow (a b : Int) (ha : InInt32 a) (hb : InInt32 b) (hb0 : b ≠ 0)
    (h : 0 < b ∨ (0 ≤ a ∧ INT_MIN < b)) :
    (∃ vs, FixedMod_values a b = some vs ∧ ∀ x ∈ vs, InInt32 x) ∧
    ∃ r, FixedMod a b = some r ∧ InInt32 r := by
  by_cases hpos : 0 < b
  · refine ⟨FixedMod_values_pos hb hpos, _, FixedMod_pos hb hpos, ?_⟩
    have h1 := Int.emod_nonneg a hb0
    have h2 := Int.emod_lt_of_pos a hpos
    unfold InInt32 at hb ⊢; unfold INT_MIN INT_MAX at *; omega
  · have hneg : b < 0 := by omega
    have ha0 : 0 ≤ a := by omega
    have hmin : INT_MIN < b := by omega
    refine ⟨FixedMod_values_neg hb hneg hmin ha0, ?_⟩
    obtain ⟨r, hr, hr0, hr1⟩ := FixedMod_neg_modulus ha hb hneg ha0
    refine ⟨r, hr, ?_⟩
    unfold InInt32 at hb ⊢; unfold INT_MIN INT_MAX at *; omega

theorem FixedMod_no_overflow_witness :
    InInt32 (-7) ∧ InInt32 3 ∧ (3 : Int) ≠ 0 ∧
    ((0 : Int) < 3 ∨ ((0 : Int) ≤ -7 ∧ INT_MIN < 3)) ∧
    (∃ vs, FixedMod_values (-7) 3 = some vs ∧ ∀ x ∈ vs, InInt32 x) ∧
    ∃ r, FixedMod (-7) 3 = some r ∧ InInt32 r :=
  ⟨by decide, by decide, by decide, by decide,
    FixedMod_no_overflow (-7) 3 (by decide) (by decide) (by decide) (by decide)⟩

/-! ### The range-reduction loop -/

theorem reciprocalMagnitude_eq {v : Int} (h : InInt32 v) :
    reciprocalMagnitude v = v.natAbs := by
  unfold InInt32 INT_MIN INT_MAX at h
  unfold reciprocalMagnitude toUnsigned toInt32
  split <;> omega

theorem div_two_pow_succ (m k : Nat) : m / 2 ^ (k + 1) = m / 2 / 2 ^ k := by
  rw [Nat.div_div_eq_div_mul, pow_succ, Nat.mul_comm]

theorem rangeReduce_of_least (fuel : Nat) : ∀ (val shift k : Nat),
    val / 2 ^ k ≤ 65536 → (∀ j, j < k → 65536 < val / 2 ^ j) → k < fuel →
    rangeReduce fuel val shift = some (val / 2 ^ k, shift + k) := by
  induction fuel with
  | zero => intro val shift k _ _ hk; omega
  | succ fuel ih =>
    intro val shift k hle hmin hk
    have hunit : 1 <<< FRACBITS = 65536 := by decide
    unfold rangeReduce
    rw [hunit]
    by_cases hv : 65536 < val
    · rw [if_pos hv]
      cases k with
      | zero => simp at hle; omega
      | succ k =>
        have e := ih (val >>> 1) (shift + 1) k
          (by rw [Nat.shiftRight_eq_div_pow, pow_one, ← div_two_pow_succ]; exact hle)
          (fun j hj => by
            rw [Nat.shiftRight_eq_div_pow, pow_one, ← div_two_pow_succ]
            exact hmin (j + 1) (by omega))
          (by omega)
        rw [e, Nat.shiftRight_eq_div_pow, pow_one, ← div_two_pow_succ]
        congr 2
        omega
    · rw [if_neg hv]
      cases k with
      | zero => simp
      | succ k =>
        have := hmin 0 (by omega)
        simp at this
        omega

theorem exists_least_shift {m : Nat} (hm : m ≤ 2 ^ 31) :
    ∃ k, k ≤ 15 ∧ m / 2 ^ k ≤ 65536 ∧ ∀ j, j < k → 65536 < m / 2 ^ j := by
  have hex : ∃ k, m / 2 ^ k ≤ 65536 :=
    ⟨15, by rw [Nat.div_le_iff_le_mul_add_pred (by norm_num)]; omega⟩
  refine ⟨Nat.find hex, ?_, Nat.find_spec hex, fun j hj => ?_⟩
  · exact Nat.find_min' hex
      (by rw [Nat.div_le_iff_le_mul_add_pred (by norm_num)]; omega)
  · exact Nat.lt_of_not_le (Nat.find_min hex hj)

theorem rangeReduce_magnitude {m : Nat} (hm : m ≤ 2 ^ 31) :
    ∃ k, k ≤ 15 ∧ m / 2 ^ k ≤ 65536 ∧ (∀ j, j < k → 65536 < m / 2 ^ j) ∧
      ∀ fuel, 16 ≤ fuel → rangeReduce fuel m 0 = some (m / 2 ^ k, k) := by
  obtain ⟨k, hk, hle, hmin⟩ := exists_least_shift hm
  refine ⟨k, hk, hle, hmin, fun fuel hf => ?_⟩
  have e := rangeReduce_of_least fuel m 0 k hle hmin (by omega)
  rw [Nat.zero_add] at e
  exact e

theorem natAbs_le_of_InInt32 {v : Int} (h : InInt32 v) : v.natAbs ≤ 2 ^ 31 := by
  unfold InInt32 INT_MIN INT_MAX at h; omega

theorem index_lower {m k : Nat} (hk : 0 < k) (hmin : ∀ j, j < k → 65536 < m / 2 ^ j) :
    32768 ≤ m / 2 ^ k := by
  obtain ⟨j, rfl⟩ : ∃ j, k = j + 1 := ⟨k - 1, by omega⟩
  have h := hmin j (by omega)
  rw [pow_succ, ← Nat.div_div_eq_div_mul]
  omega

/-! ### Claims about the range reduction -/

/-- C12. The lookup of `FixedReciprocal` stays in the table: for every nonzero
32-bit `v` (for `INT_MIN` the magnitude is the unsigned value 2^31) the loop
ends with an index in `[1, 65536]`, and in `[32768, 65536]` when at least one
halving was done; entry 0 is never read. -/
theorem reciprocal_index_range (v : Int) (hv : InInt32 v) (h0 : v ≠ 0) :
    reciprocalMagnitude INT_MIN = 2 ^ 31 ∧
    ∃ idx s, rangeReduce 32 (reciprocalMagnitude v) 0 = some (idx, s) ∧
      1 ≤ idx ∧ idx ≤ 65536 ∧ idx ≠ 0 ∧ (0 < s → 32768 ≤ idx) := by
  refine ⟨by decide, ?_⟩
  rw [reciprocalMagnitude_eq hv]
  obtain ⟨k, _, hle, hmin, hrun⟩ := rangeReduce_magnitude (natAbs_le_of_InInt32 hv)
  have hpos : 0 < k → 32768 ≤ v.natAbs / 2 ^ k := fun hk => index_lower hk hmin
  have h1 : 1 ≤ v.natAbs / 2 ^ k := by
    by_cases hk : 0 < k
    · have := hpos hk; omega
    · have hk0 : k = 0 := by omega
      subst hk0
      simp
      omega
  exact ⟨_, _, hrun 32 (by norm_num), h1, hle, by omega, hpos⟩

theorem reciprocal_index_range_witness :
    InInt32 (-300000) ∧ (-300000 : Int) ≠ 0 ∧
    ∃ idx s, rangeReduce 32 (reciprocalMagnitude (-300000)) 0 = some (idx, s) ∧
      1 ≤ idx ∧ idx ≤ 65536 ∧ idx ≠ 0 ∧ (0 < s → 32768 ≤ idx) :=
  ⟨by decide, by decide, (reciprocal_index_range (-300000) (by decide) (by decide)).2⟩

/-- C13. The loop of `FixedReciprocal` terminates for every 32-bit `v`: with 16
or more units of fuel (so with the 32 that `FixedReciprocal` gives it) it
returns, after at most 15 halvings; 15 is reached for `INT_MIN`, whose
magnitude is 2^31. -/
theorem reciprocal_loop_terminates (v : Int) (hv : InInt32 v) :
    ∃ idx s, (∀ fuel, 16 ≤ fuel →
        rangeReduce fuel (reciprocalMagnitude v) 0 = some (idx, s)) ∧
      s ≤ 15 ∧
      rangeReduce 32 (reciprocalMagnitude INT_MIN) 0 = some (65536, 15) := by
  rw [reciprocalMagnitude_eq hv]
  obtain ⟨k, hk, _, _, hrun⟩ := rangeReduce_magnitude (natAbs_le_of_InInt32 hv)
  exact ⟨_, _, hrun, hk, by decide⟩

theorem reciprocal_loop_terminates_witness :
    InInt32 2147483647 ∧
    ∃ idx s, (∀ fuel, 16 ≤ fuel →
        rangeReduce fuel (reciprocalMagnitude 2147483647) 0 = some (idx, s)) ∧
      s ≤ 15 ∧
      rangeReduce 32 (reciprocalMagnitude INT_MIN) 0 = some (65536, 15) :=
  ⟨by decide, reciprocal_loop_terminates 2147483647 (by decide)⟩


/-! ### The reciprocal -/

theorem FixedReciprocal_eq (t : Nat → Int) {v : Int} (hv : InInt32 v) :
    ∃ k, k ≤ 15 ∧ v.natAbs / 2 ^ k ≤ 65536 ∧ (∀ j, j < k → 65536 < v.natAbs / 2 ^ j) ∧
      FixedReciprocal t v = some
        (if v < 0 then toInt32 (-(toInt32 (sar (t (v.natAbs / 2 ^ k)) k)))
          else toInt32 (sar (t (v.natAbs / 2 ^ k)) k)) := by
  obtain ⟨k, hk, hle, hmin, hrun⟩ := rangeReduce_magnitude (natAbs_le_of_InInt32 hv)
  refine ⟨k, hk, hle, hmin, ?_⟩
  unfold FixedReciprocal
  rw [reciprocalMagnitude_eq hv, hrun 32 (by norm_num)]
  rfl

theorem least_shift_unique {m k k' : Nat}
    (hle : m / 2 ^ k ≤ 65536) (hmin : ∀ j, j < k → 65536 < m / 2 ^ j)
    (hle' : m / 2 ^ k' ≤ 65536) (hmin' : ∀ j, j < k' → 65536 < m / 2 ^ j) : k = k' := by
  rcases Nat.lt_trichotomy k k' with h | h | h
  · have := hmin' k h; omega
  · exact h
  · have := hmin k' h; omega

theorem FixedReciprocal_small (t : Nat → Int) {v : Int} (h2 : v.natAbs ≤ 65536) :
    FixedReciprocal t v = some
      (if v < 0 then toInt32 (-(toInt32 (t v.natAbs))) else toInt32 (t v.natAbs)) := by
  have hv : InInt32 v := by unfold InInt32 INT_MIN INT_MAX; omega
  obtain ⟨k, _, hle, hmin, e⟩ := FixedReciprocal_eq t hv
  have hk : k = 0 :=
    least_shift_unique hle hmin (show v.natAbs / 2 ^ 0 ≤ 65536 by simpa using h2)
      (fun j hj => by omega)
  subst hk
  have hs : ∀ x : Int, sar x 0 = x := fun x => by
    unfold sar; rw [Int.shiftRight_eq_div_pow]; simp
  rw [e, pow_zero, Nat.div_one, hs]

/-! ### Claims about `FixedReciprocal` -/

/-- C14. Sign symmetry of the reciprocal: for every table and every 32-bit `v`
other than 0 and `INT_MIN`, `FixedReciprocal` returns on `v` and on `-v`, and
its value on `-v` is the 32-bit negation of its value on `v`. -/
theorem FixedReciprocal_neg (t : Nat → Int) (v : Int) (hv : InInt32 v) (_h0 : v ≠ 0)
    (hmin : v ≠ INT_MIN) :
    ∃ r, FixedReciprocal t v = some r ∧
      FixedReciprocal t (-v) = some (toInt32 (-r)) := by
  have hv' : InInt32 (-v) := by
    unfold InInt32 at hv ⊢; unfold INT_MIN INT_MAX at *; omega
  obtain ⟨k, _, hle, hm, e⟩ := FixedReciprocal_eq t hv
  obtain ⟨k', _, hle', hm', e'⟩ := FixedReciprocal_eq t hv'
  rw [Int.natAbs_neg] at hle' hm' e'
  have hk : k' = k := least_shift_unique hle' hm' hle hm
  subst hk
  refine ⟨_, e, ?_⟩
  rw [e']
  have hx := toInt32_range (sar (t (v.natAbs / 2 ^ k')) k')
  generalize toInt32 (sar (t (v.natAbs / 2 ^ k')) k') = x at hx
  unfold InInt32 INT_MIN INT_MAX at hx
  by_cases hneg : v < 0
  · rw [if_neg (by omega), if_pos hneg]
    congr 1
    unfold toInt32
    omega
  · by_cases hz : v = 0
    · subst hz; simp
      unfold toInt32; omega
    · rw [if_pos (by omega), if_neg hneg]

theorem FixedReciprocal_neg_witness :
    InInt32 300000 ∧ (300000 : Int) ≠ 0 ∧ (300000 : Int) ≠ INT_MIN ∧
    ∃ r, FixedReciprocal (fun m => 4294967296 / (m : Int)) 300000 = some r ∧
      FixedReciprocal (fun m => 4294967296 / (m : Int)) (-300000) = some (toInt32 (-r)) :=
  ⟨by decide, by decide, by decide,
    FixedReciprocal_neg _ 300000 (by decide) (by decide) (by decide)⟩

/-- C15. Monotonicity on the table domain: for a table whose entries at the
indices 1..65536 are non-negative fixed-point values, non-increasing in the
index, and for `0 < v1 < v2 <= 65536`, `FixedReciprocal` returns the entries at
`v1` and `v2` themselves, the first being at least the second. -/
theorem FixedReciprocal_antitone (t : Nat → Int) (v1 v2 : Int)
    (hfix : ∀ i, 1 ≤ i → i ≤ 65536 → 0 ≤ t i ∧ t i ≤ INT_MAX)
    (hanti : ∀ i j, 1 ≤ i → i ≤ j → j ≤ 65536 → t j ≤ t i)
    (h1 : 0 < v1) (h12 : v1 < v2) (h2 : v2 ≤ 65536) :
    FixedReciprocal t v1 = some (t v1.toNat) ∧
    FixedReciprocal t v2 = some (t v2.toNat) ∧
    t v2.toNat ≤ t v1.toNat := by
  have e1 : v1.natAbs = v1.toNat := by omega
  have e2 : v2.natAbs = v2.toNat := by omega
  have r1 := hfix v1.toNat (by omega) (by omega)
  have r2 := hfix v2.toNat (by omega) (by omega)
  have f1 := FixedReciprocal_small t (v := v1) (by omega)
  have f2 := FixedReciprocal_small t (v := v2) (by omega)
  rw [if_neg (by omega), e1, toInt32_of_InInt32 (by unfold InInt32 INT_MIN; omega)] at f1
  rw [if_neg (by omega), e2, toInt32_of_InInt32 (by unfold InInt32 INT_MIN; omega)] at f2
  exact ⟨f1, f2, hanti _ _ (by omega) (by omega) (by omega)⟩

theorem FixedReciprocal_antitone_witness :
    (∀ i : Nat, 1 ≤ i → i ≤ 65536 →
      (0 : Int) ≤ 70000 - (i : Int) ∧ 70000 - (i : Int) ≤ INT_MAX) ∧
    (∀ i j : Nat, 1 ≤ i → i ≤ j → j ≤ 65536 → 70000 - (j : Int) ≤ 70000 - (i : Int)) ∧
    (0 : Int) < 3 ∧ (3 : Int) < 40000 ∧ (40000 : Int) ≤ 65536 ∧
    FixedReciprocal (fun i => 70000 - (i : Int)) 3 = some 69997 ∧
    FixedReciprocal (fun i => 70000 - (i : Int)) 40000 = some 30000 :=
  have h := FixedReciprocal_antitone (fun i => 70000 - (i : Int)) 3 40000
    (fun i _ _ => by dsimp only; unfold INT_MAX; omega)
    (fun i j _ _ _ => by dsimp only; omega)
    (by decide) (by decide) (by decide)
  ⟨fun i _ _ => by unfold INT_MAX; omega, fun i j _ _ _ => by omega,
    by decide, by decide, by decide, h.1, h.2.1⟩

theorem mul_recip_bounds {m : Nat} (h3 : 3 ≤ m) (hm : m ≤ 65536) :
    2 ^ 32 / m ≤ 2147483647 ∧
    (65535 : Int) ≤ ((m : Int) * ((2 ^ 32 / m : Nat) : Int)) / 2 ^ 16 ∧
    ((m : Int) * ((2 ^ 32 / m : Nat) : Int)) / 2 ^ 16 ≤ 65536 := by
  have hd := Nat.div_add_mod (2 ^ 32) m
  have hr := Nat.mod_lt (2 ^ 32) (show 0 < m by omega)
  have hq : 2 ^ 32 / m ≤ 2147483647 := by
    have : 2 ^ 32 / m ≤ 2 ^ 32 / 3 := Nat.div_le_div_left h3 (by norm_num)
    omega
  have hp : (m : Int) * ((2 ^ 32 / m : Nat) : Int) = 2 ^ 32 - ((2 ^ 32 % m : Nat) : Int) := by
    have : ((m * (2 ^ 32 / m) + 2 ^ 32 % m : Nat) : Int) = ((2 ^ 32 : Nat) : Int) := by
      rw [hd]
    push_cast at this ⊢
    omega
  rw [hp]
  refine ⟨hq, ?_, ?_⟩ <;> omega

/-- C16. The reciprocal recovers the scale: for a table with
`table[m] = floor(2^32 / m)` at `3 <= m <= 65536` and every `v` with
`3 <= |v| <= 65536`, `FixedReciprocal` returns some `r`, and
`FixedMul v r` is 65535 or 65536. -/
theorem FixedMul_FixedReciprocal (t : Nat → Int) (v : Int)
    (ht : ∀ m : Nat, 3 ≤ m → m ≤ 65536 → t m = ((2 ^ 32 / m : Nat) : Int))
    (h3 : 3 ≤ v.natAbs) (hv : v.natAbs ≤ 65536) :
    ∃ r, FixedReciprocal t v = some r ∧
      (FixedMul v r = 65535 ∨ FixedMul v r = 65536) := by
  obtain ⟨hq, hlo, hhi⟩ := mul_recip_bounds h3 hv
  have hv32 : InInt32 v := by unfold InInt32 INT_MIN INT_MAX; omega
  have e := FixedReciprocal_small t hv
  rw [ht _ h3 hv] at e
  generalize 2 ^ 32 / v.natAbs = q at hq hlo hhi e
  have hq32 : InInt32 (q : Int) := by unfold InInt32 INT_MIN INT_MAX; omega
  have hnq32 : InInt32 (-(q : Int)) := by unfold InInt32 INT_MIN INT_MAX; omega
  have hr : InInt32 ((v.natAbs : Int) * (q : Int) / 2 ^ 16) := by
    unfold InInt32 INT_MIN INT_MAX; omega
  rw [toInt32_of_InInt32 hq32, toInt32_of_InInt32 hnq32] at e
  refine ⟨_, e, ?_⟩
  by_cases hneg : v < 0
  · have hm : v * -(q : Int) = (v.natAbs : Int) * (q : Int) := by
      have : (v.natAbs : Int) = -v := by omega
      rw [this]; ring
    rw [if_pos hneg, FixedMul_eq hv32 hnq32, Int.fdiv_eq_ediv _ (by norm_num), hm,
      toInt32_of_InInt32 hr]
    omega
  · have hm : v * (q : Int) = (v.natAbs : Int) * (q : Int) := by
      have : (v.natAbs : Int) = v := by omega
      rw [this]
    rw [if_neg hneg, FixedMul_eq hv32 hq32, Int.fdiv_eq_ediv _ (by norm_num), hm,
      toInt32_of_InInt32 hr]
    omega

theorem FixedMul_FixedReciprocal_witness :
    (∀ m : Nat, 3 ≤ m → m ≤ 65536 →
      (fun m : Nat => ((2 ^ 32 / m : Nat) : Int)) m = ((2 ^ 32 / m : Nat) : Int)) ∧
    3 ≤ (-7 : Int).natAbs ∧ (-7 : Int).natAbs ≤ 65536 ∧
    FixedReciprocal (fun m : Nat => ((2 ^ 32 / m : Nat) : Int)) (-7) = some (-613566756) ∧
    FixedMul (-7) (-613566756) = 65535 ∧
    ∃ r, FixedReciprocal (fun m : Nat => ((2 ^ 32 / m : Nat) : Int)) (-7) = some r ∧
      (FixedMul (-7) r = 65535 ∨ FixedMul (-7) r = 65536) :=
  ⟨fun _ _ _ => rfl, by decide, by decide, by decide, by decide,
    FixedMul_FixedReciprocal _ (-7) (fun _ _ _ => rfl) (by decide) (by decide)⟩

/-- C17. Closed form of `FixedReciprocal`: for a table whose entries at the
indices 1..65536 are non-negative fixed-point values and for every 32-bit `v`
other than 0 and `INT_MIN`, with `m = |v|` and `s` the least number such that
`floor(m / 2^s) <= 65536`, the result is
`sign(v) * floor(table[floor(m / 2^s)] / 2^s)`: the entry is shifted right by
the number of halvings. `FixedApproxDiv a v` is `FixedMul` of `a` and that
value. -/
theorem FixedReciprocal_closed_form (t : Nat → Int) (v : Int)
    (hfix : ∀ i, 1 ≤ i → i ≤ 65536 → 0 ≤ t i ∧ t i ≤ INT_MAX)
    (hv : InInt32 v) (h0 : v ≠ 0) (_hmin : v ≠ INT_MIN) :
    ∃ s, v.natAbs / 2 ^ s ≤ 65536 ∧ (∀ j, j < s → 65536 < v.natAbs / 2 ^ j) ∧
      FixedReciprocal t v
        = some (Int.sign v * Int.fdiv (t (v.natAbs / 2 ^ s)) (2 ^ s)) ∧
      ∀ a, FixedApproxDiv t a v
        = some (FixedMul a (Int.sign v * Int.fdiv (t (v.natAbs / 2 ^ s)) (2 ^ s))) := by
  obtain ⟨k, _, hle, hmin, e⟩ := FixedReciprocal_eq t hv
  have hidx : 1 ≤ v.natAbs / 2 ^ k := by
    by_cases hk : 0 < k
    · have := index_lower hk hmin; omega
    · have hk0 : k = 0 := by omega
      subst hk0
      simp
      omega
  obtain ⟨h1, h2⟩ := hfix _ hidx hle
  have hpow : (0 : Int) < 2 ^ k := by positivity
  have hs : sar (t (v.natAbs / 2 ^ k)) k = Int.fdiv (t (v.natAbs / 2 ^ k)) (2 ^ k) := by
    unfold sar
    rw [Int.shiftRight_eq_div_pow, Int.fdiv_eq_ediv _ (by omega)]
    norm_cast
  have hq0 : 0 ≤ Int.fdiv (t (v.natAbs / 2 ^ k)) (2 ^ k) := by
    rw [Int.fdiv_eq_ediv _ (by omega)]
    exact Int.ediv_nonneg h1 (by omega)
  have hq1 : Int.fdiv (t (v.natAbs / 2 ^ k)) (2 ^ k) ≤ t (v.natAbs / 2 ^ k) := by
    rw [Int.fdiv_eq_ediv _ (by omega)]
    exact Int.ediv_le_self _ h1
  rw [hs] at e
  generalize hqdef : Int.fdiv (t (v.natAbs / 2 ^ k)) (2 ^ k) = q at e hq0 hq1
  have hq32 : toInt32 q = q := by
    unfold INT_MAX at h2; unfold toInt32; omega
  have hnq32 : toInt32 (-q) = -q := by
    unfold INT_MAX at h2; unfold toInt32; omega
  have hval : FixedReciprocal t v = some (Int.sign v * q) := by
    rw [e, hq32, hnq32]
    by_cases hneg : v < 0
    · rw [if_pos hneg, Int.sign_eq_neg_one_of_neg hneg]; simp
    · rw [if_neg hneg, Int.sign_eq_one_of_pos (by omega)]; simp
  refine ⟨k, hle, hmin, by rw [hqdef]; exact hval, fun a => ?_⟩
  unfold FixedApproxDiv
  rw [hqdef, hval]
  rfl

theorem FixedReciprocal_closed_form_witness :
    (∀ i : Nat, 1 ≤ i → i ≤ 65536 →
      (0 : Int) ≤ 70000 - (i : Int) ∧ 70000 - (i : Int) ≤ INT_MAX) ∧
    InInt32 (-300000) ∧ (-300000 : Int) ≠ 0 ∧ (-300000 : Int) ≠ INT_MIN ∧
    FixedReciprocal (fun i => 70000 - (i : Int)) (-300000) = some (-4062) ∧
    ∃ s, (-300000 : Int).natAbs / 2 ^ s ≤ 65536 ∧
      (∀ j, j < s → 65536 < (-300000 : Int).natAbs / 2 ^ j) ∧
      FixedReciprocal (fun i => 70000 - (i : Int)) (-300000)
        = some (Int.sign (-300000) *
            Int.fdiv ((fun i : Nat => 70000 - (i : Int)) ((-300000 : Int).natAbs / 2 ^ s))
              (2 ^ s)) ∧
      ∀ a, FixedApproxDiv (fun i => 70000 - (i : Int)) a (-300000)
        = some (FixedMul a (Int.sign (-300000) *
            Int.fdiv ((fun i : Nat => 70000 - (i : Int)) ((-300000 : Int).natAbs / 2 ^ s))
              (2 ^ s))) :=
  ⟨fun i _ _ => by unfold INT_MAX; omega, by decide, by decide, by decide, by decide,
    FixedReciprocal_closed_form (fun i => 70000 - (i : Int)) (-300000)
      (fun i _ _ => by dsimp only; unfold INT_MAX; omega)
      (by decide) (by decide) (by decide)⟩


/-! ### The number of halvings -/

/-- C18, as stated, fails: for `m = 65537` the loop halves once, while
`floor(log2(m / 65536))` is 0, since `65536 * 2^0 <= m < 65536 * 2^1`. -/
theorem halving_count_counterexample :
    65536 < 65537 ∧ 65537 ≤ 2 ^ 31 ∧
    rangeReduce 32 65537 0 = some (32768, 1) ∧
    Nat.log 2 (65537 / 65536) = 0 ∧
    65536 * 2 ^ 0 ≤ 65537 ∧ 65537 < 65536 * 2 ^ 1 ∧ (1 : Nat) ≠ 0 := by
  refine ⟨by decide, by decide, by decide, by simp, by decide, by decide, by decide⟩

/-- C18, amended. For every magnitude `m` with `65536 < m <= 2^31` the number
`s` of halvings done by the loop of `FixedReciprocal` is the least `s` with
`floor(m / 2^s) <= 65536`, which is `floor(log2(floor(m / 65537))) + 1`; it is
`floor(log2(m / 65536))` or one more. -/
theorem halving_count (m : Nat) (h1 : 65536 < m) (h2 : m ≤ 2 ^ 31) :
    ∃ idx s, rangeReduce 32 m 0 = some (idx, s) ∧
      m / 2 ^ s ≤ 65536 ∧ (∀ j, j < s → 65536 < m / 2 ^ j) ∧
      s = Nat.log 2 (m / 65537) + 1 ∧
      Nat.log 2 (m / 65536) ≤ s ∧ s ≤ Nat.log 2 (m / 65536) + 1 := by
  obtain ⟨k, _, hle, hmin, hrun⟩ := rangeReduce_magnitude h2
  have hk : 0 < k := by
    by_contra hk
    have hk0 : k = 0 := by omega
    subst hk0
    simp at hle
    omega
  obtain ⟨e, rfl⟩ : ∃ e, k = e + 1 := ⟨k - 1, by omega⟩
  have hpe : 0 < 2 ^ e := Nat.pow_pos (by norm_num)
  have hlow : 65537 * 2 ^ e ≤ m :=
    (Nat.le_div_iff_mul_le hpe).mp (hmin e (by omega))
  have hhigh : m < 65537 * 2 ^ (e + 1) :=
    (Nat.div_lt_iff_lt_mul (Nat.pow_pos (by norm_num))).mp (by omega)
  have hs : 2 ^ (e + 1) = 2 * 2 ^ e := by rw [pow_succ]; omega
  have hlog : Nat.log 2 (m / 65537) = e := by
    apply Nat.log_eq_of_pow_le_of_lt_pow
    · rw [Nat.le_div_iff_mul_le (by norm_num)]; omega
    · rw [Nat.div_lt_iff_lt_mul (by norm_num)]; omega
  have hne : m / 65536 ≠ 0 := by omega
  have hL1 : e ≤ Nat.log 2 (m / 65536) := by
    rw [← Nat.pow_le_iff_le_log (by norm_num) hne, Nat.le_div_iff_mul_le (by norm_num)]
    omega
  have hL2 : Nat.log 2 (m / 65536) < e + 1 + 1 := by
    rw [← Nat.lt_pow_iff_log_lt (by norm_num) hne, Nat.div_lt_iff_lt_mul (by norm_num),
      pow_succ]
    omega
  exact ⟨_, _, hrun 32 (by norm_num), hle, hmin, by omega, by omega, by omega⟩

theorem halving_count_witness :
    65536 < 131074 ∧ 131074 ≤ 2 ^ 31 ∧
    ∃ idx s, rangeReduce 32 131074 0 = some (idx, s) ∧
      131074 / 2 ^ s ≤ 65536 ∧ (∀ j, j < s → 65536 < 131074 / 2 ^ j) ∧
      s = Nat.log 2 (131074 / 65537) + 1 ∧
      Nat.log 2 (131074 / 65536) ≤ s ∧ s ≤ Nat.log 2 (131074 / 65536) + 1 :=
  ⟨by decide, by decide, halving_count 131074 (by decide) (by decide)⟩

/-! ### A zero modulus -/

/-- C19. The function `FixedMod` never divides by zero: for a zero modulus the
test `0 & (0 - 1)` is 0, so the mask is taken and the 32-bit `a` comes back
unchanged, `FixedMod a 0 = a`; the remainder is evaluated only when the test
is nonzero, and then `b` is not 0. -/
theorem FixedMod_zero_modulus (a : Int) (ha : InInt32 a) :
    and32 0 (toInt32 (0 - 1)) = 0 ∧
    FixedMod a 0 = some a ∧
    (∀ b, and32 b (toInt32 (b - 1)) ≠ 0 → b ≠ 0) ∧
    (a ≠ 0 → FixedMod_values a 0 = some [0 - 1, a]) := by
  have htest : and32 0 (toInt32 (0 - 1)) = 0 := by decide
  have hmask : modMask a 0 = a := by
    unfold InInt32 INT_MIN INT_MAX at ha
    have e1 : toUnsigned (toInt32 (0 - 1)) = 2 ^ 32 - 1 := by decide
    unfold modMask and32
    rw [e1, Nat.and_pow_two_sub_one_eq_mod]
    unfold toUnsigned toInt32
    omega
  refine ⟨htest, ?_, ?_, ?_⟩
  · unfold FixedMod
    split
    · next h => rw [h]
    · rw [if_neg (by rw [htest]; simp), hmask]
  · intro b hb h
    subst h
    exact hb htest
  · intro h
    unfold FixedMod_values
    rw [if_neg h, if_neg (by rw [htest]; simp), hmask]

theorem FixedMod_zero_modulus_witness :
    InInt32 (-7) ∧ FixedMod (-7) 0 = some (-7) :=
  ⟨by decide, (FixedMod_zero_modulus (-7) (by decide)).2.1⟩

/-! ### The tick counter of `I_GetTime` -/

theorem I_GetTime_step {s : VideoTicks} {p t : Nat} (hs : TicksInvariant s p)
    (h1 : p ≤ t) (h2 : t < p + 65536) :
    (I_GetTime s t).2 = toInt32 (t : Int) ∧ TicksInvariant (I_GetTime s t).1 t := by
  obtain ⟨last, base⟩ := s
  unfold TicksInvariant at hs ⊢
  unfold I_GetTime
  simp only at hs ⊢
  unfold toInt32
  split <;> omega

theorem ticksAdvance_cons {p t : Nat} {ts : List Nat} :
    ticksAdvance p (t :: ts) = true ↔ p ≤ t ∧ t < p + 65536 ∧ ticksAdvance t ts = true := by
  simp [ticksAdvance, and_assoc]

theorem getTimes_of_advance (ts : List Nat) : ∀ (s : VideoTicks) (p : Nat),
    TicksInvariant s p → ticksAdvance p ts = true →
    getTimes s ts = ts.map (fun t : Nat => toInt32 (t : Int)) ∧
      TicksInvariant (finalTicks s ts) (ts.getLastD p) := by
  induction ts with
  | nil => intro s p hs _; exact ⟨rfl, hs⟩
  | cons t ts ih =>
    intro s p hs hc
    rw [ticksAdvance_cons] at hc
    obtain ⟨hr, hinv⟩ := I_GetTime_step hs hc.1 hc.2.1
    obtain ⟨e, hfin⟩ := ih _ t hinv hc.2.2
    refine ⟨?_, ?_⟩
    · simp only [getTimes, List.map_cons, hr, e]
    · rw [List.getLastD_cons]; exact hfin

theorem pairwise_of_advance (ts : List Nat) : ∀ p : Nat, ticksAdvance p ts = true →
    (∀ t ∈ ts, p ≤ t) ∧ ts.Pairwise (fun x y => x ≤ y) := by
  induction ts with
  | nil => intro p _; exact ⟨by simp, List.Pairwise.nil⟩
  | cons t ts ih =>
    intro p hc
    rw [ticksAdvance_cons] at hc
    obtain ⟨hge, hp⟩ := ih t hc.2.2
    refine ⟨?_, List.Pairwise.cons hge hp⟩
    intro x hx
    rcases List.mem_cons.mp hx with rfl | hx
    · exact hc.1
    · exact Nat.le_trans hc.1 (hge x hx)

/-- C20. Tick-counter extension of `I_GetTime`: starting from the statics
`(0, 0)`, if the tick counts seen by successive calls are non-decreasing, the
first below 65536 and each less than 65536 above the one before, then every
call returns the tick count reduced to 32 bits, the statics keep `vt_base` a
multiple of 65536 with `vt_base + vt_last` equal to the count modulo 2^32, and
while the counts stay below 2^31 the returned times are the counts themselves
and never go backwards. -/
theorem I_GetTime_extends (ts : List Nat)
    (h : ticksAdvance 0 ts = true) :
    getTimes VideoTicks.init ts = ts.map (fun t : Nat => toInt32 (t : Int)) ∧
    TicksInvariant (finalTicks VideoTicks.init ts) (ts.getLastD 0) ∧
    ((∀ t ∈ ts, t < 2 ^ 31) →
      getTimes VideoTicks.init ts = ts.map (fun t : Nat => (t : Int)) ∧
      List.Pairwise (fun x y => x ≤ y) (getTimes VideoTicks.init ts)) := by
  have hinit : TicksInvariant VideoTicks.init 0 := by
    unfold TicksInvariant VideoTicks.init; simp
  obtain ⟨e, hfin⟩ := getTimes_of_advance ts _ 0 hinit h
  refine ⟨e, hfin, fun hsmall => ?_⟩
  have e2 : getTimes VideoTicks.init ts = ts.map (fun t : Nat => (t : Int)) := by
    rw [e]
    apply List.map_congr_left
    intro t ht
    have := hsmall t ht
    unfold toInt32
    omega
  refine ⟨e2, ?_⟩
  rw [e2, List.pairwise_map]
  exact (pairwise_of_advance ts 0 h).2.imp fun hxy => by exact_mod_cast hxy

theorem I_GetTime_extends_witness :
    ticksAdvance 0 [5, 65535, 65536, 131071, 196606] = true ∧
    getTimes VideoTicks.init [5, 65535, 65536, 131071, 196606]
      = [5, 65535, 65536, 131071, 196606] ∧
    finalTicks VideoTicks.init [5, 65535, 65536, 131071, 196606] = ⟨65534, 131072⟩ ∧
    TicksInvariant (finalTicks VideoTicks.init [5, 65535, 65536, 131071, 196606]) 196606 :=
  ⟨by decide, by decide, by decide,
    (I_GetTime_extends [5, 65535, 65536, 131071, 196606] (by decide)).2.1⟩

end DoomFixed
